import Mathlib

/-!
Verification development for the pineback backtesting server.

The Python sources under scrutiny are shallowly embedded below:

* machine floats (f64) are idealised as exact rationals (or reals where a
  square root occurs), with IEEE NaN modelled as the `none` value of an
  `Option`; arithmetic propagates `none`, comparisons against `none` are
  false, and division by zero yields `none` (matching float 0.0/0.0 = NaN
  in the only places a zero denominator is reachable);
* pandas Series / numpy arrays become `List` values over that domain;
* fallible calls (a Python try/except around a strategy invocation)
  become `Option`-valued inputs, `none` marking the raised branch.

Each definition carries a comment naming the Python source function it
translates.
-/

namespace Pineback

/-- Scalar domain for f64 series: `none` is IEEE NaN, `some q` a numeric
value idealised as a rational. -/
abbrev F : Type := Option ℚ

/-- NaN-propagating addition. -/
def fadd : F → F → F
  | some a, some b => some (a + b)
  | _, _ => none

/-- NaN-propagating subtraction. -/
def fsub : F → F → F
  | some a, some b => some (a - b)
  | _, _ => none

/-- NaN-propagating multiplication. -/
def fmul : F → F → F
  | some a, some b => some (a * b)
  | _, _ => none

/-- Comparison a > b; any NaN operand compares false (IEEE semantics). -/
def fgt : F → F → Bool
  | some a, some b => a > b
  | _, _ => false

/-- Comparison a < b; any NaN operand compares false. -/
def flt : F → F → Bool
  | some a, some b => a < b
  | _, _ => false

/-- Comparison a ≤ b; any NaN operand compares false. -/
def fle : F → F → Bool
  | some a, some b => a ≤ b
  | _, _ => false

/-- Comparison a ≥ b; any NaN operand compares false. -/
def fge : F → F → Bool
  | some a, some b => a ≥ b
  | _, _ => false

-- ════════════════════════════════════════════════════════════════════
--  server/data.py — magnifier resolution selection (claim C1)
-- ════════════════════════════════════════════════════════════════════

/-- Translation of the `_TF_MINUTES` dict of server/data.py: minutes per
timeframe literal, `none` for an unknown literal (`dict.get`). -/
def tfMinutes : String → Option Nat
  | "1m" => some 1
  | "3m" => some 3
  | "5m" => some 5
  | "15m" => some 15
  | "30m" => some 30
  | "1h" => some 60
  | "4h" => some 240
  | "1d" => some 1440
  | _ => none

/-- The `_VALID_RESOLUTIONS` list of server/data.py, ascending minutes. -/
def validResolutions : List Nat := [1, 3, 5, 15, 30, 60, 240]

/-- The eight timeframe literals, in the insertion order of the
`_TF_MINUTES` dict. -/
def timeframeLiterals : List String :=
  ["1m", "3m", "5m", "15m", "30m", "1h", "4h", "1d"]

/-- Translation of `_minutes_to_tf` of server/data.py: first timeframe
literal whose minute count matches, else the minutes with an m suffix. -/
def minutesToTf (minutes : Nat) : String :=
  match timeframeLiterals.find? (fun tf => tfMinutes tf = some minutes) with
  | some tf => tf
  | none => toString minutes ++ "m"

/-- Loop body of `compute_magnifier_resolution`: fold over the candidate
resolutions keeping `(best_res, best_dist)`; `best_dist = none` models the
initial float infinity.  A candidate is skipped when it is not a proper
divisor of the chart minutes or when the sub-bar count exceeds `maxTicks`;
otherwise it replaces the best on a strict distance improvement. -/
def magnifierFold (chartMin targetTicks maxTicks : Nat) :
    Nat × Option Nat → Nat → Nat × Option Nat :=
  fun (best : Nat × Option Nat) (resMin : Nat) =>
    if resMin ≥ chartMin then best
    else if chartMin % resMin ≠ 0 then best
    else
      let ticks := chartMin / resMin
      if ticks > maxTicks then best
      else
        let dist := (Int.natAbs ((ticks : ℤ) - (targetTicks : ℤ)))
        match best.2 with
        | none => (resMin, some dist)
        | some bd => if dist < bd then (resMin, some dist) else best

/-- Translation of `compute_magnifier_resolution` of server/data.py with
the default `target_ticks = 10`; `int(target_ticks * 1.6)` evaluates to
the literal 16 there. -/
def computeMagnifierResolution (timeframe : String) : String :=
  match tfMinutes timeframe with
  | none => "1m"
  | some chartMin =>
    if chartMin ≤ 1 then "1m"
    else
      let maxTicks := 16
      let best := validResolutions.foldl (magnifierFold chartMin 10 maxTicks) (1, none)
      minutesToTf best.1

/-- Qualifying candidate resolution for chart duration M: a proper divisor
of M drawn from the allowed set whose sub-bar count M/res is at most 16. -/
def qualifies (chartMin res : Nat) : Bool :=
  decide (res ∈ validResolutions) && decide (res < chartMin) &&
    decide (chartMin % res = 0) && decide (chartMin / res ≤ 16)

/-- Distance of the sub-bar count from the target 10. -/
def tickDist (chartMin res : Nat) : Nat :=
  Int.natAbs ((chartMin / res : ℤ) - 10)

/-- Statement of the amended selection rule, written from the corrected
claim text for comparison with the code: among qualifying resolutions the
code returns the one minimising |M/res − 10|, preferring the smaller
resolution on ties, and falls back to 1 minute when the duration is at
most one minute or no candidate qualifies. -/
def amendedPickOk (tf : String) : Bool :=
  match tfMinutes tf with
  | none => computeMagnifierResolution tf == "1m"
  | some m =>
    if m ≤ 1 then computeMagnifierResolution tf == "1m"
    else if validResolutions.all (fun r => !qualifies m r) then
      computeMagnifierResolution tf == "1m"
    else
      validResolutions.any (fun r =>
        qualifies m r && (computeMagnifierResolution tf == minutesToTf r) &&
          validResolutions.all (fun r2 =>
            !qualifies m r2 ||
              (decide (tickDist m r ≤ tickDist m r2) &&
                (decide (tickDist m r2 ≠ tickDist m r) || decide (r ≤ r2)))))

-- ════════════════════════════════════════════════════════════════════
--  server/backtester.py — magnifier position state machine (C2, C8)
-- ════════════════════════════════════════════════════════════════════

/-- Position flags of `Backtester._run_magnified` (lines 229-230). -/
structure MagState where
  inLong : Bool
  inShort : Bool
deriving DecidableEq, Repr

/-- The four signal vectors a sub-bar may write into. -/
inductive MagWrite where
  | longEntry
  | longExit
  | shortEntry
  | shortExit
deriving DecidableEq, Repr

/-- Signals of one sub-bar as consumed by the inner loop: the four
last-bar booleans after the NaN-to-false coercion of lines 301-304, or
`none` when `strategy.compute` raised (the except branch of line 298). -/
abbrev SubBarSig := Option (Bool × Bool × Bool × Bool)

/-- One iteration of the inner sub-bar loop of `_run_magnified`
(lines 296-321): exceptions mean no transition; otherwise the four
guarded branches in program order, each recording one write. -/
def subBarStep (st : MagState) (sig : SubBarSig) : MagState × Option MagWrite :=
  match sig with
  | none => (st, none)
  | some (le, lx, se, sx) =>
    if !st.inLong && le then ({ st with inLong := true }, some MagWrite.longEntry)
    else if st.inLong && lx then ({ st with inLong := false }, some MagWrite.longExit)
    else if !st.inShort && se then ({ st with inShort := true }, some MagWrite.shortEntry)
    else if st.inShort && sx then ({ st with inShort := false }, some MagWrite.shortExit)
    else (st, none)

/-- Inner loop over the sub-bars of one chart bar: a recorded write
breaks out of the loop (the `break` statements of lines 309-321), a
silent sub-bar continues. -/
def runChartBar (st : MagState) : List SubBarSig → MagState × Option MagWrite
  | [] => (st, none)
  | sig :: rest =>
    match subBarStep st sig with
    | (st1, some w) => (st1, some w)
    | (st1, none) => runChartBar st1 rest

/-- Outer loop of `_run_magnified` over chart bars, threading the
position flags and collecting the per-bar transition (if any). -/
def runMagnifier (st : MagState) : List (List SubBarSig) → MagState × List (Option MagWrite)
  | [] => (st, [])
  | bar :: bars =>
    let (st1, w) := runChartBar st bar
    let (st2, ws) := runMagnifier st1 bars
    (st2, w :: ws)

/-- States visited by the magnifier run, initial state included. -/
def magStates (st : MagState) : List (List SubBarSig) → List MagState
  | [] => [st]
  | bar :: bars =>
    let (st1, _) := runChartBar st bar
    st :: magStates st1 bars

-- ════════════════════════════════════════════════════════════════════
--  server/ta.py — cross detection, pandas and array families (C9, C10)
-- ════════════════════════════════════════════════════════════════════

/-- Element i of a pandas series shifted right by one: NaN at position 0
(`a.shift(1)`). -/
def shift1At (a : List F) (i : Nat) : F :=
  if i = 0 then none else a.getD (i - 1) none

/-- Translation of `ta.crossover` (server/ta.py lines 389-394):
`(a > b) & (a.shift(1) <= b.shift(1))`, elementwise over the common
index. A scalar b corresponds to a constant list. -/
def crossoverPd (a b : List F) : List Bool :=
  (List.range a.length).map fun i =>
    fgt (a.getD i none) (b.getD i none) && fle (shift1At a i) (shift1At b i)

/-- Translation of `ta.crossunder` (server/ta.py lines 396-401):
`(a < b) & (a.shift(1) >= b.shift(1))`. -/
def crossunderPd (a b : List F) : List Bool :=
  (List.range a.length).map fun i =>
    flt (a.getD i none) (b.getD i none) && fge (shift1At a i) (shift1At b i)

/-- Translation of `ta_fast.crossover` (server/ta.py lines 853-864):
an all-zero f64 output with 1.0 written at i ≥ 1 when
`a[i] > b[i] and a[i-1] <= b[i-1]`. -/
def crossoverFast (a b : List F) : List ℚ :=
  (List.range a.length).map fun i =>
    if i = 0 then 0
    else if fgt (a.getD i none) (b.getD i none) &&
            fle (a.getD (i - 1) none) (b.getD (i - 1) none) then 1 else 0

/-- Translation of `ta_fast.crossunder` (server/ta.py lines 866-877). -/
def crossunderFast (a b : List F) : List ℚ :=
  (List.range a.length).map fun i =>
    if i = 0 then 0
    else if flt (a.getD i none) (b.getD i none) &&
            fge (a.getD (i - 1) none) (b.getD (i - 1) none) then 1 else 0

-- ════════════════════════════════════════════════════════════════════
--  server/_numba_kernels.py — the _ema kernel (C5)
-- ════════════════════════════════════════════════════════════════════

/-- One step of the `_ema` loop body (server/_numba_kernels.py lines
42-48): NaN input carries the previous output, a NaN previous output
re-seeds from the input, otherwise the EWMA recurrence. -/
def emaStep (alpha : ℚ) (prev cur : F) : F :=
  match cur, prev with
  | none, _ => prev
  | some v, none => some v
  | some v, some p => some (alpha * v + (1 - alpha) * p)

/-- Tail of the `_ema` loop, carrying the previous output value. -/
def emaGo (alpha : ℚ) (prev : F) : List F → List F
  | [] => []
  | v :: rest =>
    let cur := emaStep alpha prev v
    cur :: emaGo alpha cur rest

/-- Translation of `_ema` (server/_numba_kernels.py lines 35-49):
α = 2/(span+1), out[0] = src[0], then the loop. -/
def ema (src : List F) (span : Nat) : List F :=
  match src with
  | [] => []
  | v :: rest => v :: emaGo (2 / (span + 1)) v rest

/-- The value the claim asserts for `out[i]` at i ≥ 1: carry on NaN
input, otherwise the recurrence α·x[i] + (1−α)·out[i−1] — with NaN
propagating through the arithmetic as the code base's design notes
stipulate. This is the claim's wording, kept for comparison; it omits
the re-seed branch of the kernel. -/
def emaClaimValue (alpha : ℚ) (prev cur : F) : F :=
  match cur with
  | none => prev
  | some _ => fadd (fmul (some alpha) cur) (fmul (some (1 - alpha)) prev)

-- ════════════════════════════════════════════════════════════════════
--  server/ta.py — ta.change / ta.cum in both families, and the routines
--  the code generator emits for a cumulative-change strategy (C3)
-- ════════════════════════════════════════════════════════════════════

/-- Translation of `ta.change(source)` = `source.diff(1)` (server/ta.py
lines 342-344) and of `ta_fast.change` with the default length 1
(lines 793-800): both produce NaN at position 0 and the NaN-propagating
difference x[i] − x[i−1] elsewhere. -/
def change1 (x : List F) : List F :=
  (List.range x.length).map fun i =>
    if i = 0 then none else fsub (x.getD i none) (x.getD (i - 1) none)

/-- Translation of `ta.cum(source)` = `source.cumsum()` (server/ta.py
lines 380-383): pandas cumulative sum with its default skipna behaviour —
a NaN position stays NaN, and every numeric position holds the sum of the
numeric values seen so far. -/
def cumPd (x : List F) : List F :=
  go 0 x
where
  go (acc : ℚ) : List F → List F
    | [] => []
    | none :: rest => none :: go acc rest
    | some v :: rest => some (acc + v) :: go (acc + v) rest

/-- Translation of `ta_fast.cum(source)` = `np.cumsum(source)`
(server/ta.py lines 847-849): the running sum with IEEE NaN propagation —
once a NaN is encountered every later prefix sum is NaN. -/
def cumNp (x : List F) : List F :=
  match x with
  | [] => []
  | v :: rest => v :: go v rest
where
  go (acc : F) : List F → List F
    | [] => []
    | v :: rest =>
      let acc1 := fadd acc v
      acc1 :: go acc1 rest

/-- Batch routine `_compute` that `CodeGenerator` emits for the strategy
whose sole assignments are `delta = ta.cum(ta.change(close))` and
`longEntryCondition = delta > 0`, with one if-block entering long on that
condition. The emitted body is
`delta = ta.cum(ta.change(_close))`,
`longEntryCondition = (delta > 0)`,
`return (longEntryCondition.fillna(False), ...all-false series...)`;
the comparison of a pandas series against the scalar 0 is already false
at NaN positions, so the fillna is the identity here. -/
def cumStrategyBatch (close : List F) : List Bool × List Bool × List Bool × List Bool :=
  let delta := cumPd (change1 close)
  let cond := delta.map (fun v => fgt v (some 0))
  (cond, close.map (fun _ => false), close.map (fun _ => false), close.map (fun _ => false))

/-- Step routine `_compute_fast` that `CodeGenerator` emits for the same
strategy (codegen.py lines 242-310): identical assignments with `ta`
bound to `ta_fast`, then the last element of the long-entry array with
NaN coerced to false, and literal `False` for the three unbound slots. -/
def cumStrategyStep (close : List F) : Bool × Bool × Bool × Bool :=
  let delta := cumNp (change1 close)
  let cond := delta.map (fun v => fgt v (some 0))
  (cond.getLastD false, false, false, false)

/-- Last-bar booleans of the batch routine, as the magnifier reads them. -/
def cumStrategyBatchLast (close : List F) : Bool × Bool × Bool × Bool :=
  let (le, lx, se, sx) := cumStrategyBatch close
  (le.getLastD false, lx.getLastD false, se.getLastD false, sx.getLastD false)

-- ════════════════════════════════════════════════════════════════════
--  server/pine/codegen.py — warmup estimation (C4)
-- ════════════════════════════════════════════════════════════════════

mutual
/-- Expression AST as produced by the pine parser (ast_nodes.py), with
the argument vectors spelled as mutual list types so that structural
recursion mirrors `_expr_to_python`.  `taCall` is a `FuncCall` with
namespace ta, `mathCall` one with namespace math, `otherCall` any other
call; the operator and name payloads that do not influence warmup are
kept only where the walk depends on them. -/
inductive PExpr where
  | num (v : ℚ)
  | pbool (b : Bool)
  | pstr (s : String)
  | na
  | ident (name : String)
  | binop (l r : PExpr)
  | unop (e : PExpr)
  | subsc (e : PExpr) (index : Nat)
  | taCall (name : String) (args : PArgs) (kwargs : PKwargs)
  | mathCall (name : String) (args : PArgs)
  | otherCall (name : String) (args : PArgs)
  | propAcc (ns nm : String)

/-- Positional argument list of a call. -/
inductive PArgs where
  | nil
  | cons (hd : PExpr) (tl : PArgs)

/-- Keyword argument list of a call. -/
inductive PKwargs where
  | nil
  | cons (key : String) (val : PExpr) (tl : PKwargs)
end

/-- Registered input parameter as held in `CodeGenerator._inputs`
(strategy.py dataclasses): the `int`/`float` kinds carry the default the
tracker reads; `bool`/`string` kinds never contribute. -/
inductive InpDef where
  | intD (v : ℤ)
  | floatD (v : ℚ)
  | boolD (b : Bool)
  | strD (s : String)
deriving DecidableEq

/-- Program slice relevant to warmup estimation: the input declarations
(registered before any assignment is lowered) and the assignment
right-hand sides in source order. -/
structure PProgram where
  inputs : List (String × InpDef)
  assignments : List PExpr

/-- Python `int()` truncation toward zero on a rational. -/
def truncQ (q : ℚ) : ℤ :=
  if 0 ≤ q then ⌊q⌋ else ⌈q⌉

/-- Value `_track_period` (codegen.py lines 516-528) extracts from one
direct positional argument of a ta call: a numeric literal counts via
`int(value)` only inside [1, 1000] (a Python bool literal is an int and
counts as 0 or 1); an identifier naming a registered int/float input
counts as the truncated default, with no range restriction. -/
def trackVal (inputs : List (String × InpDef)) : PExpr → Option ℤ
  | .num v =>
    let t := truncQ v
    if 1 ≤ t ∧ t ≤ 1000 then some t else none
  | .pbool b =>
    let t : ℤ := if b then 1 else 0
    if 1 ≤ t ∧ t ≤ 1000 then some t else none
  | .ident n =>
    match inputs.lookup n with
    | some (InpDef.intD v) => some v
    | some (InpDef.floatD v) => some (truncQ v)
    | _ => none
  | _ => none

/-- Fold of `_track_period` over the direct positional arguments of one
ta call. -/
def trackDirect (inputs : List (String × InpDef)) : ℤ → PArgs → ℤ
  | m, .nil => m
  | m, .cons a tl =>
    let m1 := match trackVal inputs a with
      | some v => max m v
      | none => m
    trackDirect inputs m1 tl

mutual
/-- The `_max_period` accumulation performed while `_expr_to_python`
walks an expression: recursion into every sub-expression, and at each ta
call (`_ta_call_to_python`) additionally the direct-argument tracking of
`_track_period`. -/
def trackExpr (inputs : List (String × InpDef)) : ℤ → PExpr → ℤ
  | m, .num _ => m
  | m, .pbool _ => m
  | m, .pstr _ => m
  | m, .na => m
  | m, .ident _ => m
  | m, .propAcc _ _ => m
  | m, .binop l r => trackExpr inputs (trackExpr inputs m l) r
  | m, .unop e => trackExpr inputs m e
  | m, .subsc e _ => trackExpr inputs m e
  | m, .taCall _ args kws =>
    trackKwargs inputs (trackDirect inputs (trackArgs inputs m args) args) kws
  | m, .mathCall _ args => trackArgs inputs m args
  | m, .otherCall _ args => trackArgs inputs m args

/-- Walk of the positional arguments. -/
def trackArgs (inputs : List (String × InpDef)) : ℤ → PArgs → ℤ
  | m, .nil => m
  | m, .cons a tl => trackArgs inputs (trackExpr inputs m a) tl

/-- Walk of the keyword-argument values. -/
def trackKwargs (inputs : List (String × InpDef)) : ℤ → PKwargs → ℤ
  | m, .nil => m
  | m, .cons _ v tl => trackKwargs inputs (trackExpr inputs m v) tl
end

/-- The `_max_period` value after `generate` has lowered every
assignment (processing the expressions twice, for the batch and the fast
emission, changes nothing since the tracking is a running maximum). -/
def maxPeriodCode (p : PProgram) : ℤ :=
  p.assignments.foldl (trackExpr p.inputs) 0

/-- Warmup of the emitted strategy: `max(self._max_period * 3, 50)`
(codegen.py line 151). -/
def warmupCode (p : PProgram) : ℤ :=
  max (maxPeriodCode p * 3) 50

mutual
/-- Direct positional arguments of every ta call occurring in an
expression, collected in walk order (used to restate the running maximum
declaratively). -/
def collectExpr : PExpr → List PExpr
  | .num _ => []
  | .pbool _ => []
  | .pstr _ => []
  | .na => []
  | .ident _ => []
  | .propAcc _ _ => []
  | .binop l r => collectExpr l ++ collectExpr r
  | .unop e => collectExpr e
  | .subsc e _ => collectExpr e
  | .taCall _ args kws => collectArgs args ++ argsList args ++ collectKwargs kws
  | .mathCall _ args => collectArgs args
  | .otherCall _ args => collectArgs args

/-- Collection over positional arguments. -/
def collectArgs : PArgs → List PExpr
  | .nil => []
  | .cons a tl => collectExpr a ++ collectArgs tl

/-- Collection over keyword-argument values. -/
def collectKwargs : PKwargs → List PExpr
  | .nil => []
  | .cons _ v tl => collectExpr v ++ collectKwargs tl

/-- Plain list of the direct positional arguments of one call. -/
def argsList : PArgs → List PExpr
  | .nil => []
  | .cons a tl => a :: argsList tl
end

/-- Declarative maximum over a list of tracked values, floor 0. -/
def listMax (vals : List ℤ) : ℤ :=
  vals.foldl max 0

/-- Declarative restatement of the tracked maximum: the maximum over all
direct ta-call arguments in the program of the clamped-literal /
input-default valuation. -/
def maxPeriodSpec (p : PProgram) : ℤ :=
  listMax ((p.assignments.flatMap collectExpr).filterMap (trackVal p.inputs))

/-- Valuation the claim describes, written from the claim's words for
refutation: every numeric literal period counts (no [1, 1000] clamp),
and int/float input defaults count. -/
def trackValClaim (inputs : List (String × InpDef)) : PExpr → Option ℤ
  | .num v => some (truncQ v)
  | .ident n =>
    match inputs.lookup n with
    | some (InpDef.intD v) => some v
    | some (InpDef.floatD v) => some (truncQ v)
    | _ => none
  | _ => none

/-- Warmup the claim predicts: `max(3 × max_period, 50)` over the
unclamped valuation. -/
def warmupClaim (p : PProgram) : ℤ :=
  max (3 * listMax ((p.assignments.flatMap collectExpr).filterMap (trackValClaim p.inputs))) 50

/-- Strategy whose single assignment is `p = ta.sma(close, 1001)`. -/
def progLit1001 : PProgram :=
  { inputs := []
    assignments :=
      [PExpr.taCall "sma"
        (PArgs.cons (PExpr.ident "close") (PArgs.cons (PExpr.num 1001) PArgs.nil))
        PKwargs.nil] }

/-- Strategy declaring `L = input.int(50, "L")` and using it as the SMA
period: `s = ta.sma(close, L)`. -/
def progInput50 : PProgram :=
  { inputs := [("L", InpDef.intD 50)]
    assignments :=
      [PExpr.taCall "sma"
        (PArgs.cons (PExpr.ident "close") (PArgs.cons (PExpr.ident "L") PArgs.nil))
        PKwargs.nil] }

-- ════════════════════════════════════════════════════════════════════
--  server/ta.py — Bollinger bands, both families (C6)
-- ════════════════════════════════════════════════════════════════════

/-- Division of a NaN-carrying value by a rational; a zero denominator
yields NaN (float 0.0/0.0, the only zero-denominator case reachable in
the translated code). -/
def qdivF (v : F) (d : ℚ) : F :=
  match v with
  | none => none
  | some q => if d = 0 then none else some (q / d)

/-- NaN-propagating sum of a series. -/
def sumO (l : List F) : F :=
  l.foldr fadd (some 0)

/-- Trailing window of length L ending at index i (the slice
`src[i-length+1 : i+1]`). -/
def win (x : List F) (i L : Nat) : List F :=
  (x.take (i + 1)).drop (i + 1 - L)

/-- Element i of the `_sma` kernel (server/_numba_kernels.py lines
74-95): NaN below index L−1 or when the trailing window holds a NaN,
else the window mean. -/
def smaAt (x : List F) (L i : Nat) : F :=
  if i + 1 < L then none else qdivF (sumO (win x i L)) L

/-- Sequencing of a NaN-carrying series into its numeric contents,
failing on any NaN member. -/
def seqO : List F → Option (List ℚ)
  | [] => some []
  | none :: _ => none
  | some v :: t => (seqO t).map (fun vs => v :: vs)

/-- Numeric contents of the trailing window when it is NaN-free. -/
def winVals (x : List F) (i L : Nat) : Option (List ℚ) :=
  seqO (win x i L)

/-- Sample variance (ddof = 1) over the trailing window, as pandas
`rolling(L).std(ddof=1)` computes it before the square root: deviations
from the window mean, normalised by L−1; NaN on a short or NaN-carrying
window, and on L = 1 (0/0). This is also the formula of the amended
claim. -/
def pdVarAt (x : List F) (L i : Nat) : F :=
  if i + 1 < L then none
  else
    match winVals x i L with
    | none => none
    | some vs =>
      qdivF (some ((vs.map (fun v => (v - vs.sum / L) ^ 2)).sum)) (L - 1 : ℕ)

/-- Pre-root sum of squared deviations of the `ta_fast.bb` loop
(server/ta.py lines 619-632): deviations taken from the `_sma` middle
value, accumulated with NaN propagation. -/
def fastVarAt (x : List F) (L i : Nat) : F :=
  if i + 1 < L then none
  else
    qdivF (sumO ((win x i L).map
      (fun v => fmul (fsub v (smaAt x L i)) (fsub v (smaAt x L i))))) (L - 1 : ℕ)

/-- Lift of the NaN-carrying rational domain into NaN-carrying reals. -/
def liftR (v : F) : Option ℝ :=
  v.map (fun q => (q : ℝ))

/-- NaN-propagating square root. -/
noncomputable def osqrt (v : Option ℝ) : Option ℝ :=
  v.map Real.sqrt

/-- NaN-propagating real addition. -/
noncomputable def oaddR (a b : Option ℝ) : Option ℝ :=
  match a, b with
  | some x, some y => some (x + y)
  | _, _ => none

/-- NaN-propagating real subtraction. -/
noncomputable def osubR (a b : Option ℝ) : Option ℝ :=
  match a, b with
  | some x, some y => some (x - y)
  | _, _ => none

/-- NaN-propagating real scaling by the multiplier. -/
noncomputable def omulR (m : ℚ) (a : Option ℝ) : Option ℝ :=
  a.map (fun x => (m : ℝ) * x)

/-- Element i of the triple returned by `ta.bb(source, L, mult)`
(server/ta.py lines 216-223): middle = sma, bands at mult times the
pandas rolling standard deviation, which is the square root of the
sample variance. By construction this is simultaneously the sample-std
(ddof = 1) formula of the amended claim. -/
noncomputable def bbPdAt (x : List F) (L : Nat) (m : ℚ) (i : Nat) :
    Option ℝ × Option ℝ × Option ℝ :=
  let mid := liftR (smaAt x L i)
  let std := osqrt (liftR (pdVarAt x L i))
  (mid, oaddR mid (omulR m std), osubR mid (omulR m std))

/-- Element i of the triple returned by `ta_fast.bb(source, L, mult)`
(server/ta.py lines 618-632): the same middle, with the band offset
computed from the loop's sum of squared deviations from the middle. -/
noncomputable def bbFastAt (x : List F) (L : Nat) (m : ℚ) (i : Nat) :
    Option ℝ × Option ℝ × Option ℝ :=
  let mid := liftR (smaAt x L i)
  let std := osqrt (liftR (fastVarAt x L i))
  (mid, oaddR mid (omulR m std), osubR mid (omulR m std))

/-- Population variance (ddof = 0) over the trailing window, written
from the claim's words for refutation. -/
def popVarAt (x : List F) (L i : Nat) : F :=
  if i + 1 < L then none
  else
    match winVals x i L with
    | none => none
    | some vs =>
      qdivF (some ((vs.map (fun v => (v - vs.sum / L) ^ 2)).sum)) L

/-- Upper band the claim predicts at element i: sma plus mult times the
population standard deviation. -/
noncomputable def bbPopUpperAt (x : List F) (L : Nat) (m : ℚ) (i : Nat) : Option ℝ :=
  oaddR (liftR (smaAt x L i)) (omulR m (osqrt (liftR (popVarAt x L i))))

-- ════════════════════════════════════════════════════════════════════
--  server/pine/tokens.py — tokenizer (C7)
-- ════════════════════════════════════════════════════════════════════

/-- Token kinds of `TokenType` in tokens.py. -/
inductive TokenType where
  | number
  | str
  | ident
  | keyword
  | lparen
  | rparen
  | lbracket
  | rbracket
  | comma
  | dot
  | assign
  | op
  | newline
  | indent
  | dedent
  | eof
deriving DecidableEq, Repr

/-- A produced token: kind, lexeme characters, 1-based source line
(0 for the closing dedents and the eof, as in the code). -/
structure Token where
  type : TokenType
  value : List Char
  line : Nat
deriving DecidableEq, Repr

/-- Kinds `_tokenize_line` can emit: the line-content subset of
`TokenType` (it never emits newline, indent, dedent or eof, which only
the main loop appends). -/
inductive LKind where
  | number
  | str
  | ident
  | keyword
  | lparen
  | rparen
  | lbracket
  | rbracket
  | comma
  | dot
  | assign
  | op
deriving DecidableEq, Repr

/-- A token of the line scanner before the line number is attached. -/
structure LTok where
  kind : LKind
  value : List Char
deriving DecidableEq, Repr

/-- Injection of line-scanner kinds into the full token-kind type. -/
def lkindToType : LKind → TokenType
  | .number => .number
  | .str => .str
  | .ident => .ident
  | .keyword => .keyword
  | .lparen => .lparen
  | .rparen => .rparen
  | .lbracket => .lbracket
  | .rbracket => .rbracket
  | .comma => .comma
  | .dot => .dot
  | .assign => .assign
  | .op => .op

/-- Whitespace characters of Python str.strip(). -/
def isPyWs (c : Char) : Bool :=
  c = ' ' || c = '\t' || c = '\n' || c = '\r' || c = '\x0B' || c = '\x0C'

/-- Python str.rstrip(). -/
def pyRstrip (l : List Char) : List Char :=
  (l.reverse.dropWhile isPyWs).reverse

/-- Python str.strip(). -/
def pyStrip (l : List Char) : List Char :=
  pyRstrip (l.dropWhile isPyWs)

/-- Translation of `Tokenizer._strip_comment` (tokens.py lines 167-176):
remove a // comment, preserving quoted strings; a quote preceded by a
raw backslash does not toggle the string state. -/
def stripComment : Bool → Option Char → List Char → List Char
  | _, _, [] => []
  | inStr, prev, c :: rest =>
    if c = '"' && prev ≠ some '\\' then
      c :: stripComment (!inStr) (some c) rest
    else if c = '/' && !inStr && rest.head? = some '/' then
      []
    else
      c :: stripComment inStr (some c) rest

/-- Paren/bracket depth update over one character, clamped at zero
(tokens.py lines 151-160). -/
def depthStep (d : Nat × Nat) (c : Char) : Nat × Nat :=
  if c = '(' then (d.1 + 1, d.2)
  else if c = ')' then (d.1 - 1, d.2)
  else if c = '[' then (d.1, d.2 + 1)
  else if c = ']' then (d.1, d.2 - 1)
  else d

/-- Translation of the loop of `Tokenizer._preprocess` (tokens.py lines
131-165): comment stripping, then continuation-line joining driven by
the running paren/bracket depth, producing (line number, content)
pairs. -/
def preprocessGo (i paren bracket : Nat) (accum : List Char) (accumStart : Nat) :
    List (List Char) → List (Nat × List Char)
  | [] => if accum ≠ [] then [(accumStart, accum)] else []
  | l :: rest =>
    let line := stripComment false none l
    let st :=
      if paren > 0 || bracket > 0 then
        (accum ++ ' ' :: pyStrip line, accumStart, ([] : List (Nat × List Char)))
      else
        (pyRstrip line, i, if accum ≠ [] then [(accumStart, accum)] else [])
    let d := line.foldl depthStep (paren, bracket)
    st.2.2 ++ preprocessGo (i + 1) d.1 d.2 st.1 st.2.1 rest

/-- Preprocessing of a whole source string: split on newlines and run
the joining loop with 1-based line numbers. -/
def preprocess (src : String) : List (Nat × List Char) :=
  preprocessGo 1 0 0 [] 0 ((src.splitOn "\n").map String.toList)

/-- Identifier continuation characters (`isalnum` or underscore). -/
def isIdentChar (c : Char) : Bool :=
  c.isAlphanum || c = '_'

/-- Keyword set of tokens.py. -/
def pineKeywords : List (List Char) :=
  [[ 'i', 'f'], ['a', 'n', 'd'], ['o', 'r'], ['n', 'o', 't'],
   ['t', 'r', 'u', 'e'], ['f', 'a', 'l', 's', 'e'], ['n', 'a'],
   ['s', 't', 'r', 'a', 't', 'e', 'g', 'y']]

/-- String-literal scanner of `_tokenize_line` (tokens.py lines
193-204): consume up to the closing quote, a backslash skipping the next
character; returns (content, remaining input). An unterminated literal
consumes the rest of the line. The result carries the bound on the
remaining input that justifies termination of the line scanner. -/
def lexString : (cs : List Char) → { p : List Char × List Char // p.2.length ≤ cs.length }
  | [] => ⟨([], []), by simp⟩
  | c :: rest =>
    if c = '"' then ⟨([], rest), by simp⟩
    else if c = '\\' then
      match rest with
      | [] => ⟨(['\\'], []), by simp⟩
      | d :: rest2 =>
        let p := lexString rest2
        ⟨('\\' :: d :: p.1.1, p.1.2), by
          have h := p.2
          simp only [List.length_cons]
          omega⟩
    else
      let p := lexString rest
      ⟨(c :: p.1.1, p.1.2), by
        have h := p.2
        simp only [List.length_cons]
        omega⟩

/-- Number scanner of `_tokenize_line` (tokens.py lines 207-218):
digits with at most one decimal point; a second point terminates the
lexeme. The first character of the lexeme is consumed by the caller. -/
def lexNum (hasDot : Bool) : (cs : List Char) → { p : List Char × List Char // p.2.length ≤ cs.length }
  | [] => ⟨([], []), by simp⟩
  | c :: rest =>
    if c.isDigit then
      let p := lexNum hasDot rest
      ⟨(c :: p.1.1, p.1.2), by
        have h := p.2
        simp only [List.length_cons]
        omega⟩
    else if c = '.' then
      if hasDot then ⟨([], c :: rest), by simp⟩
      else
        let p := lexNum true rest
        ⟨(c :: p.1.1, p.1.2), by
          have h := p.2
          simp only [List.length_cons]
          omega⟩
    else ⟨([], c :: rest), by simp⟩

/-- Identifier scanner of `_tokenize_line` (tokens.py lines 265-275):
the while loop advancing over alphanumeric and underscore characters.
The first character is consumed by the caller. -/
def lexIdent : (cs : List Char) → { p : List Char × List Char // p.2.length ≤ cs.length }
  | [] => ⟨([], []), by simp⟩
  | c :: rest =>
    if isIdentChar c then
      let p := lexIdent rest
      ⟨(c :: p.1.1, p.1.2), by
        have h := p.2
        simp only [List.length_cons]
        omega⟩
    else ⟨([], c :: rest), by simp⟩

/-- Line-content scanner: translation of `Tokenizer._tokenize_line`
(tokens.py lines 180-278). Branch order follows the source: whitespace,
string literal, number, two-character operator, single-character
operator, assignment, punctuation, identifier/keyword, and finally the
silent skip of an unrecognized character. -/
def tokLine (cs : List Char) : List LTok :=
  match cs with
  | [] => []
  | c :: rest =>
    if c = ' ' || c = '\t' then tokLine rest
    else if c = '"' then
      let p := lexString rest
      ⟨LKind.str, p.1.1⟩ :: tokLine p.1.2
    else if c.isDigit || (c = '.' && (rest.head?.map Char.isDigit).getD false) then
      let p := lexNum (c == '.') rest
      ⟨LKind.number, c :: p.1.1⟩ :: tokLine p.1.2
    else if (c = '>' || c = '<' || c = '=' || c = '!') && rest.head? = some '=' then
      ⟨LKind.op, [c, '=']⟩ :: tokLine rest.tail
    else if c = '+' || c = '-' || c = '*' || c = '/' || c = '%' || c = '>' || c = '<' then
      ⟨LKind.op, [c]⟩ :: tokLine rest
    else if c = '=' then ⟨LKind.assign, [c]⟩ :: tokLine rest
    else if c = '(' then ⟨LKind.lparen, [c]⟩ :: tokLine rest
    else if c = ')' then ⟨LKind.rparen, [c]⟩ :: tokLine rest
    else if c = '[' then ⟨LKind.lbracket, [c]⟩ :: tokLine rest
    else if c = ']' then ⟨LKind.rbracket, [c]⟩ :: tokLine rest
    else if c = ',' then ⟨LKind.comma, [c]⟩ :: tokLine rest
    else if c = '.' then ⟨LKind.dot, [c]⟩ :: tokLine rest
    else if c.isAlpha || c = '_' then
      let p := lexIdent rest
      let word := c :: p.1.1
      (if word ∈ pineKeywords then (⟨LKind.keyword, word⟩ : LTok)
       else ⟨LKind.ident, word⟩) :: tokLine p.1.2
    else tokLine rest
termination_by cs.length
decreasing_by
  all_goals
    simp only [List.length_cons, List.length_tail]
    first
      | omega
      | (apply Nat.lt_succ_of_le
         first
           | exact (lexString _).2
           | exact (lexNum _ _).2
           | exact (lexIdent _).2)



/-- Number of leading plain spaces (the indent after
`line.lstrip(" ")`). -/
def leadSpaces (l : List Char) : Nat :=
  (l.takeWhile (fun c => c = ' ')).length

/-- Dedent emission while the indent is smaller than the stack top
(tokens.py lines 106-108); the stack is kept top-first. -/
def popDedents (indent ln : Nat) : List Nat → List Token × List Nat
  | [] => ([], [])
  | s :: rest =>
    if indent < s then
      let p := popDedents indent ln rest
      (⟨TokenType.dedent, [], ln⟩ :: p.1, p.2)
    else ([], s :: rest)

/-- Main loop of `Tokenizer.tokenize` (tokens.py lines 93-112) over the
preprocessed lines, threading the indent stack (top-first, seeded with
0) and emitting indent/dedent bookkeeping, the line tokens and a newline
per surviving line. -/
def tokGo (stack : List Nat) : List (Nat × List Char) → List Token × List Nat
  | [] => ([], stack)
  | (ln, line) :: rest =>
    if pyStrip line = [] then tokGo stack rest
    else
      let indent := leadSpaces line
      let text := line.dropWhile (fun c => c = ' ')
      let pushed :=
        if indent > stack.headD 0 then ([(⟨TokenType.indent, [], ln⟩ : Token)], indent :: stack)
        else ([], stack)
      let popped := popDedents indent ln pushed.2
      let lineToks := (tokLine text).map (fun t => (⟨lkindToType t.kind, t.value, ln⟩ : Token))
      let tail := tokGo popped.2 rest
      (pushed.1 ++ popped.1 ++ lineToks ++ [⟨TokenType.newline, ['\\', 'n'], ln⟩] ++ tail.1,
        tail.2)

/-- Translation of `Tokenizer.tokenize` (tokens.py lines 88-120): the
main loop, then one dedent per still-open indent level, then the single
eof token. -/
def tokenize (src : String) : List Token :=
  let r := tokGo [0] (preprocess src)
  r.1 ++ List.replicate (r.2.length - 1) ⟨TokenType.dedent, [], 0⟩ ++
    [⟨TokenType.eof, [], 0⟩]

-- ════════════════════════════════════════════════════════════════════
--  Theorems
-- ════════════════════════════════════════════════════════════════════

/-- C1, counterexample: the claim predicts resolution 15m for the 4-hour
chart (largest qualifying divisor reading of the rule and the stated
example), but the code returns 30m for M = 240. -/
theorem c1_counterexample :
    computeMagnifierResolution ("4h") = "30m" ∧ ("30m" : String) ≠ "15m" := by
  constructor
  · rfl
  · decide

/-- C1 (amended): with the default target of 10, the function picks from
{1,3,5,15,30,60,240} among the proper divisors of M whose sub-bar count
M/res is at most 16 the one minimising |M/res − 10| (the smaller
resolution on a tie), falling back to 1m when M ≤ 1 or no divisor
qualifies; in particular M = 60 yields 5m, M = 240 yields 30m and M = 1
yields 1m. -/
theorem c1_amended :
    (∀ tf ∈ timeframeLiterals, amendedPickOk tf = true) ∧
    computeMagnifierResolution ("1h") = "5m" ∧
    computeMagnifierResolution ("4h") = "30m" ∧
    computeMagnifierResolution ("1m") = "1m" := by
  refine ⟨by decide, rfl, rfl, rfl⟩

/-- C1 witness: the amended characterisation instantiated at the 1-hour
timeframe. -/
theorem c1_amended_witness :
    "1h" ∈ timeframeLiterals ∧ amendedPickOk ("1h") = true :=
  ⟨by decide, c1_amended.1 ("1h") (by decide)⟩

/-- C2, counterexample: a short entry on one chart bar followed by a
long entry signal on the next leaves both position flags set — the long
entry branch checks only `in_long`, so it fires from an open short
position and the claimed mutual-exclusion invariant fails. -/
theorem c2_counterexample :
    (runMagnifier ⟨false, false⟩
        [[some (false, false, true, false)], [some (true, false, false, false)]]).1 =
      ⟨true, true⟩ ∧
    (runMagnifier ⟨false, false⟩
        [[some (false, false, true, false)], [some (true, false, false, false)]]).2 =
      [some MagWrite.shortEntry, some MagWrite.longEntry] := by
  constructor <;> rfl

/-- C2 (amended): the engine acts on a long entry exactly when not
already long and on a short entry exactly when not already short —
regardless of the opposite flag, so the two flags may be simultaneously
true after an entry fires from an opposite position; exits are acted on
only from the matching position, and at most one signal is recorded per
chart bar (the loop breaks after the first). -/
theorem c2_amended :
    ∀ (st : MagState) (sig : SubBarSig),
      ((subBarStep st sig).2 = some MagWrite.longEntry → st.inLong = false) ∧
      ((subBarStep st sig).2 = some MagWrite.shortEntry → st.inShort = false) ∧
      ((subBarStep st sig).2 = some MagWrite.longExit → st.inLong = true) ∧
      ((subBarStep st sig).2 = some MagWrite.shortExit → st.inShort = true) := by
  intro st sig
  cases st with
  | mk il ish =>
    cases sig with
    | none => simp [subBarStep]
    | some q =>
      rcases q with ⟨le, lx, se, sx⟩
      cases il <;> cases ish <;> cases le <;> cases lx <;> cases se <;> cases sx <;>
        simp [subBarStep]

/-- C2 witness: from an open short position with a long-entry signal,
the step records a long entry and the gate `in_long = false` held. -/
theorem c2_amended_witness :
    ((subBarStep ⟨false, true⟩ (some (true, false, false, false))).2 =
      some MagWrite.longEntry → MagState.inLong ⟨false, true⟩ = false) ∧
    MagState.inLong ⟨false, true⟩ = false :=
  ⟨(c2_amended ⟨false, true⟩ (some (true, false, false, false))).1,
    (c2_amended ⟨false, true⟩ (some (true, false, false, false))).1 (by decide)⟩

/-- C3: for the compiled strategy
`delta = ta.cum(ta.change(close))`, `longEntryCondition = delta > 0`
(long entry on that condition), the step routine and the batch routine
disagree on the window with closes (1, 2): `np.cumsum` propagates the
leading NaN of `ta.change` so the step long-entry is false, while the
pandas cumulative sum skips the NaN and the batch last-bar long-entry is
true.  This exhibits the code bug behind the claim. -/
theorem c3_step_batch_divergence :
    cumStrategyStep [some 1, some 2] = (false, false, false, false) ∧
    cumStrategyBatchLast [some 1, some 2] = (true, false, false, false) ∧
    cumStrategyStep [some 1, some 2] ≠ cumStrategyBatchLast [some 1, some 2] := by
  have h1 : cumStrategyStep [some 1, some 2] = (false, false, false, false) := by rfl
  have h2 : cumStrategyBatchLast [some 1, some 2] = (true, false, false, false) := by
    simp [cumStrategyBatchLast, cumStrategyBatch, cumPd, cumPd.go, change1, fsub, fgt,
      List.getLastD]
  refine ⟨h1, h2, by rw [h1, h2]; simp⟩

/-- C8: an exception raised by the batch invocation of one sub-bar is
swallowed: the position flags are unchanged, no signal vector is
written, and the inner loop proceeds to the next sub-bar exactly as if
the failing sub-bar were absent. -/
theorem c8_exception_swallowed :
    ∀ (st : MagState) (rest : List SubBarSig),
      subBarStep st none = (st, none) ∧
      runChartBar st (none :: rest) = runChartBar st rest := by
  intro st rest
  exact ⟨rfl, by simp [runChartBar, subBarStep]⟩

/-- Element access of a map over an index range. -/
theorem getD_map_range {α : Type} (f : Nat → α) (n i : Nat) (d : α) :
    ((List.range n).map f).getD i d = if i < n then f i else d := by
  by_cases h : i < n
  · simp [List.getD, List.getElem?_map, List.getElem?_range, h]
  · have hn : (List.range n)[i]? = none := by
      rw [List.getElem?_eq_none]
      simpa using Nat.le_of_not_lt h
    simp [List.getD, hn, h]

/-- A value cannot be simultaneously strictly above and strictly below
another, NaN operands comparing false. -/
theorem fgt_flt_false (x y : F) : (fgt x y && flt x y) = false := by
  rcases x with _ | a <;> rcases y with _ | b <;> simp [fgt, flt]
  intro h
  exact le_of_lt h

/-- C9: crossover and crossunder are never simultaneously true at any
position, in the pandas family (boolean series) and in the array-mode
family (0/1-valued f64 arrays, where exclusion is expressed by a
vanishing product); a scalar second operand corresponds to a constant
list in both families. -/
theorem c9_cross_mutual_exclusion :
    ∀ (a b : List F) (i : Nat),
      ((crossoverPd a b).getD i false && (crossunderPd a b).getD i false) = false ∧
      (crossoverFast a b).getD i 0 * (crossunderFast a b).getD i 0 = 0 := by
  intro a b i
  constructor
  · rw [crossoverPd, crossunderPd, getD_map_range, getD_map_range]
    by_cases h : i < a.length
    · simp only [if_pos h]
      have hx := fgt_flt_false (a.getD i none) (b.getD i none)
      cases hg : fgt (a.getD i none) (b.getD i none) <;>
        cases hl : flt (a.getD i none) (b.getD i none) <;> simp_all
    · simp [h]
  · rw [crossoverFast, crossunderFast, getD_map_range, getD_map_range]
    by_cases h : i < a.length
    · simp only [if_pos h]
      by_cases h0 : i = 0
      · simp [h0]
      · simp only [if_neg h0]
        have hx := fgt_flt_false (a.getD i none) (b.getD i none)
        cases hg : fgt (a.getD i none) (b.getD i none) <;>
          cases hl : flt (a.getD i none) (b.getD i none) <;> simp_all
    · simp [h]

/-- C10: neither family can signal a cross at the very first position of
a window: the pandas comparison against the NaN introduced by shift(1)
is false, and the array kernels only write from index 1 on. -/
theorem c10_no_cross_at_first_bar :
    ∀ (a b : List F),
      (crossoverPd a b).getD 0 false = false ∧
      (crossunderPd a b).getD 0 false = false ∧
      (crossoverFast a b).getD 0 0 = 0 ∧
      (crossunderFast a b).getD 0 0 = 0 := by
  intro a b
  refine ⟨?_, ?_, ?_, ?_⟩
  · rw [crossoverPd, getD_map_range]
    by_cases h : 0 < a.length
    · simp [h, shift1At, fle]
    · simp [h]
  · rw [crossunderPd, getD_map_range]
    by_cases h : 0 < a.length
    · simp [h, shift1At, fge]
    · simp [h]
  · rw [crossoverFast, getD_map_range]
    by_cases h : 0 < a.length <;> simp [h]
  · rw [crossunderFast, getD_map_range]
    by_cases h : 0 < a.length <;> simp [h]

/-- Length preservation of the EMA loop. -/
theorem emaGo_length (alpha : ℚ) (prev : F) (l : List F) :
    (emaGo alpha prev l).length = l.length := by
  induction l generalizing prev with
  | nil => simp [emaGo]
  | cons v t ih => simp [emaGo, ih]

/-- Index recurrence of the EMA loop tail. -/
theorem emaGo_succ (alpha : ℚ) :
    ∀ (l : List F) (prev : F) (i : Nat), i + 1 < l.length →
      (emaGo alpha prev l).getD (i + 1) none =
        emaStep alpha ((emaGo alpha prev l).getD i none) (l.getD (i + 1) none)
  | [], _, i, h => by simp at h
  | v :: t, prev, i, h => by
    cases i with
    | zero =>
      cases t with
      | nil => simp at h
      | cons w t2 => simp [emaGo]
    | succ j =>
      have hj : j + 1 < t.length := by
        simpa using Nat.lt_of_succ_lt_succ h
      have ih := emaGo_succ alpha t (emaStep alpha prev v) j hj
      simp only [emaGo, List.getD_cons_succ]
      exact ih

/-- C5, counterexample: with x = [NaN, 5] the kernel re-seeds and
returns 5 at index 1, while the claimed recurrence value
α·x[1] + (1−α)·out[0] is NaN (NaN propagates through the product with
the NaN previous output), so the claimed equation fails at i = 1. -/
theorem c5_counterexample :
    (ema [none, some 5] 3).getD 1 none = some 5 ∧
    emaClaimValue (2 / (3 + 1)) ((ema [none, some 5] 3).getD 0 none) (some 5) = none ∧
    (ema [none, some 5] 3).getD 1 none ≠
      emaClaimValue (2 / (3 + 1)) ((ema [none, some 5] 3).getD 0 none) (some 5) := by
  refine ⟨rfl, rfl, by decide⟩

/-- C5 (amended): with α = 2/(L+1) the kernel satisfies out[0] = x[0]
and, for 1 ≤ i < n, out[i] = out[i−1] when x[i] is NaN, out[i] = x[i]
when out[i−1] is NaN (re-seed after leading NaNs), and
out[i] = α·x[i] + (1−α)·out[i−1] otherwise. -/
theorem c5_amended :
    ∀ (x : List F) (span : Nat),
      (ema x span).length = x.length ∧
      (ema x span).getD 0 none = x.getD 0 none ∧
      ∀ i : Nat, i + 1 < x.length →
        (ema x span).getD (i + 1) none =
          emaStep (2 / (span + 1)) ((ema x span).getD i none) (x.getD (i + 1) none) := by
  intro x span
  cases x with
  | nil => exact ⟨by simp [ema], by simp [ema], fun i h => by simp at h⟩
  | cons v rest =>
    refine ⟨by simp [ema, emaGo_length], by simp [ema], ?_⟩
    intro i h
    cases i with
    | zero =>
      cases rest with
      | nil => simp at h
      | cons w t2 => simp [ema, emaGo]
    | succ j =>
      have hj : j + 1 < rest.length := by
        simpa using Nat.lt_of_succ_lt_succ h
      have hrec := emaGo_succ (2 / (span + 1)) rest v j hj
      simp only [ema, List.getD_cons_succ]
      exact hrec

/-- C5 witness: the amended recurrence instantiated at x = [1, 2],
span = 3, i = 0. -/
theorem c5_amended_witness :
    0 + 1 < ([some 1, some 2] : List F).length ∧
    (ema [some 1, some 2] 3).getD (0 + 1) none =
      emaStep (2 / (3 + 1)) ((ema [some 1, some 2] 3).getD 0 none)
        (([some 1, some 2] : List F).getD (0 + 1) none) :=
  ⟨by decide, (c5_amended [some 1, some 2] 3).2.2 0 (by decide)⟩

/-- A maximum fold over the integers factors through its accumulator
when the accumulator is nonnegative. -/
theorem foldl_max_acc : ∀ (l : List ℤ) (a : ℤ), 0 ≤ a →
    l.foldl max a = max a (l.foldl max 0)
  | [], a, ha => by
    simp only [List.foldl_nil]
    omega
  | x :: t, a, ha => by
    simp only [List.foldl_cons]
    rw [foldl_max_acc t (max a x) (by omega), foldl_max_acc t (max 0 x) (by omega)]
    omega

/-- The floored maximum is nonnegative. -/
theorem listMax_nonneg (l : List ℤ) : 0 ≤ listMax l := by
  cases l with
  | nil => simp [listMax]
  | cons x t =>
    simp only [listMax, List.foldl_cons]
    rw [foldl_max_acc t (max 0 x) (by omega)]
    omega

/-- The floored maximum distributes over list append. -/
theorem listMax_append (l1 l2 : List ℤ) :
    listMax (l1 ++ l2) = max (listMax l1) (listMax l2) := by
  simp only [listMax, List.foldl_append]
  rw [foldl_max_acc l2 (l1.foldl max 0) (listMax_nonneg l1)]

/-- The direct-argument tracking of one ta call equals the declarative
maximum over its tracked argument values. -/
theorem trackDirect_eq (inputs : List (String × InpDef)) :
    ∀ (as : PArgs) (m : ℤ), 0 ≤ m →
      trackDirect inputs m as = max m (listMax ((argsList as).filterMap (trackVal inputs)))
  | .nil, m, hm => by
    simp only [trackDirect, argsList, List.filterMap_nil, listMax, List.foldl_nil]
    omega
  | .cons a tl, m, hm => by
    simp only [trackDirect, argsList, List.filterMap_cons]
    cases hv : trackVal inputs a with
    | none =>
      rw [trackDirect_eq inputs tl m hm]
    | some v =>
      rw [trackDirect_eq inputs tl (max m v) (by omega)]
      have h2 : listMax (v :: (argsList tl).filterMap (trackVal inputs)) =
          max 0 (max v (listMax ((argsList tl).filterMap (trackVal inputs)))) := by
        simp only [listMax, List.foldl_cons]
        rw [foldl_max_acc _ (max 0 v) (by omega)]
        omega
      rw [h2]
      omega

mutual
/-- The running maximum accumulated by the expression walk equals the
declarative maximum over the collected direct ta-call arguments. -/
theorem trackExpr_eq (inputs : List (String × InpDef)) :
    ∀ (e : PExpr) (m : ℤ), 0 ≤ m →
      trackExpr inputs m e = max m (listMax ((collectExpr e).filterMap (trackVal inputs)))
  | .num v, m, hm => by
    simp only [trackExpr, collectExpr, List.filterMap_nil, listMax, List.foldl_nil]
    omega
  | .pbool b, m, hm => by
    simp only [trackExpr, collectExpr, List.filterMap_nil, listMax, List.foldl_nil]
    omega
  | .pstr s, m, hm => by
    simp only [trackExpr, collectExpr, List.filterMap_nil, listMax, List.foldl_nil]
    omega
  | .na, m, hm => by
    simp only [trackExpr, collectExpr, List.filterMap_nil, listMax, List.foldl_nil]
    omega
  | .ident n, m, hm => by
    simp only [trackExpr, collectExpr, List.filterMap_nil, listMax, List.foldl_nil]
    omega
  | .propAcc ns nm, m, hm => by
    simp only [trackExpr, collectExpr, List.filterMap_nil, listMax, List.foldl_nil]
    omega
  | .binop l r, m, hm => by
    simp only [trackExpr, collectExpr, List.filterMap_append, listMax_append]
    rw [trackExpr_eq inputs l m hm]
    rw [trackExpr_eq inputs r _ (by have := listMax_nonneg ((collectExpr l).filterMap (trackVal inputs)); omega)]
    have h1 := listMax_nonneg ((collectExpr l).filterMap (trackVal inputs))
    have h2 := listMax_nonneg ((collectExpr r).filterMap (trackVal inputs))
    omega
  | .unop e, m, hm => by
    simp only [trackExpr, collectExpr]
    exact trackExpr_eq inputs e m hm
  | .subsc e k, m, hm => by
    simp only [trackExpr, collectExpr]
    exact trackExpr_eq inputs e m hm
  | .taCall nm args kws, m, hm => by
    simp only [trackExpr, collectExpr, List.append_assoc, List.filterMap_append,
      listMax_append]
    have hA := listMax_nonneg ((collectArgs args).filterMap (trackVal inputs))
    have hD := listMax_nonneg ((argsList args).filterMap (trackVal inputs))
    have hK := listMax_nonneg ((collectKwargs kws).filterMap (trackVal inputs))
    rw [trackArgs_eq inputs args m hm]
    rw [trackDirect_eq inputs args _ (by omega)]
    rw [trackKwargs_eq inputs kws _ (by omega)]
    omega
  | .mathCall nm args, m, hm => by
    simp only [trackExpr, collectExpr]
    exact trackArgs_eq inputs args m hm
  | .otherCall nm args, m, hm => by
    simp only [trackExpr, collectExpr]
    exact trackArgs_eq inputs args m hm

/-- Argument-list companion of the walk lemma. -/
theorem trackArgs_eq (inputs : List (String × InpDef)) :
    ∀ (as : PArgs) (m : ℤ), 0 ≤ m →
      trackArgs inputs m as = max m (listMax ((collectArgs as).filterMap (trackVal inputs)))
  | .nil, m, hm => by
    simp only [trackArgs, collectArgs, List.filterMap_nil, listMax, List.foldl_nil]
    omega
  | .cons a tl, m, hm => by
    simp only [trackArgs, collectArgs, List.filterMap_append, listMax_append]
    have hA := listMax_nonneg ((collectExpr a).filterMap (trackVal inputs))
    have hT := listMax_nonneg ((collectArgs tl).filterMap (trackVal inputs))
    rw [trackExpr_eq inputs a m hm]
    rw [trackArgs_eq inputs tl _ (by omega)]
    omega

/-- Keyword-list companion of the walk lemma. -/
theorem trackKwargs_eq (inputs : List (String × InpDef)) :
    ∀ (ks : PKwargs) (m : ℤ), 0 ≤ m →
      trackKwargs inputs m ks = max m (listMax ((collectKwargs ks).filterMap (trackVal inputs)))
  | .nil, m, hm => by
    simp only [trackKwargs, collectKwargs, List.filterMap_nil, listMax, List.foldl_nil]
    omega
  | .cons k v tl, m, hm => by
    simp only [trackKwargs, collectKwargs, List.filterMap_append, listMax_append]
    have hA := listMax_nonneg ((collectExpr v).filterMap (trackVal inputs))
    have hT := listMax_nonneg ((collectKwargs tl).filterMap (trackVal inputs))
    rw [trackExpr_eq inputs v m hm]
    rw [trackKwargs_eq inputs tl _ (by omega)]
    omega
end

/-- The sequential tracking over all assignments equals the declarative
program-wide maximum. -/
theorem maxPeriod_eq (p : PProgram) : maxPeriodCode p = maxPeriodSpec p := by
  suffices h : ∀ (es : List PExpr) (m : ℤ), 0 ≤ m →
      es.foldl (trackExpr p.inputs) m =
        max m (listMax ((es.flatMap collectExpr).filterMap (trackVal p.inputs))) by
    have := h p.assignments 0 le_rfl
    simp only [maxPeriodCode, maxPeriodSpec, this]
    have := listMax_nonneg ((p.assignments.flatMap collectExpr).filterMap (trackVal p.inputs))
    omega
  intro es
  induction es with
  | nil =>
    intro m hm
    simp only [List.foldl_nil, List.flatMap_nil, List.filterMap_nil, listMax, List.foldl_nil]
    omega
  | cons e t ih =>
    intro m hm
    simp only [List.foldl_cons, List.flatMap_cons, List.filterMap_append, listMax_append]
    have hA := listMax_nonneg ((collectExpr e).filterMap (trackVal p.inputs))
    have hT := listMax_nonneg ((t.flatMap collectExpr).filterMap (trackVal p.inputs))
    rw [trackExpr_eq p.inputs e m hm]
    rw [ih _ (by omega)]
    omega

/-- C4, counterexample: the program `p = ta.sma(close, 1001)` has a
literal period of 1001, outside the tracker's [1, 1000] window, so the
code reports warmup 50 while the claim predicts max(3 × 1001, 50). -/
theorem c4_counterexample :
    warmupCode progLit1001 = 50 ∧ warmupClaim progLit1001 = 3003 ∧
    warmupCode progLit1001 ≠ warmupClaim progLit1001 := by
  refine ⟨by decide, by decide, by decide⟩

/-- C4 (amended): warmup equals max(3 × max_period, 50) where max_period
is the maximum over direct positional ta-call arguments of the truncated
numeric (or boolean) literals lying in [1, 1000] and of the truncated
defaults of referenced int/float inputs; in particular input.int(50)
used as an SMA period gives warmup 150. -/
theorem c4_amended :
    (∀ p : PProgram, warmupCode p = max (3 * maxPeriodSpec p) 50) ∧
    warmupCode progInput50 = 150 := by
  constructor
  · intro p
    simp only [warmupCode, maxPeriod_eq, Int.mul_comm]
  · decide

/-- A NaN member poisons the NaN-propagating sum. -/
theorem sumO_of_mem_none : ∀ (l : List F), none ∈ l → sumO l = none
  | [], h => by simp at h
  | x :: t, h => by
    rcases List.mem_cons.mp h with hx | ht
    · simp [sumO, ← hx, fadd]
    · simp [sumO, List.foldr_cons]
      rw [show t.foldr fadd (some 0) = sumO t from rfl, sumO_of_mem_none t ht]
      simp [fadd]

/-- The NaN-propagating sum of an all-numeric series is its sum. -/
theorem sumO_map_some : ∀ vs : List ℚ, sumO (vs.map some) = some vs.sum
  | [] => by simp [sumO]
  | v :: t => by
    simp only [List.map_cons, sumO, List.foldr_cons]
    rw [show (t.map some).foldr fadd (some 0) = sumO (t.map some) from rfl, sumO_map_some t]
    simp [fadd]

/-- A failed sequencing means a NaN member. -/
theorem seqO_none : ∀ l : List F, seqO l = none → none ∈ l
  | [], h => by simp [seqO] at h
  | none :: t, _ => by simp
  | some v :: t, h => by
    simp only [seqO] at h
    cases ht : seqO t with
    | none => exact List.mem_cons_of_mem _ (seqO_none t ht)
    | some vs => simp [ht] at h

/-- A successful sequencing exhibits the numeric contents. -/
theorem seqO_some : ∀ (l : List F) (vs : List ℚ), seqO l = some vs → l = vs.map some
  | [], vs, h => by
    simp [seqO] at h
    simp [← h]
  | none :: t, vs, h => by simp [seqO] at h
  | some v :: t, vs, h => by
    simp only [seqO] at h
    cases ht : seqO t with
    | none => simp [ht] at h
    | some ws =>
      simp only [ht] at h
      simp only [Option.map_some, Option.map_some', Option.some_inj] at h
      rw [← h]
      simp [seqO_some t ws ht]

/-- The pre-root variance of the array-mode Bollinger loop equals the
pandas sample variance: deviations from the kernel sma coincide with
deviations from the window mean, and every NaN path agrees. -/
theorem varAt_eq (x : List F) (L i : Nat) (hL : 1 ≤ L) :
    fastVarAt x L i = pdVarAt x L i := by
  by_cases hi : i + 1 < L
  · simp [fastVarAt, pdVarAt, hi]
  · cases hw : winVals x i L with
    | none =>
      have hpd : pdVarAt x L i = none := by
        simp [pdVarAt, hi, hw]
      have hnone : (none : F) ∈ win x i L := seqO_none _ hw
      have hmem : (none : F) ∈ (win x i L).map
          (fun v => fmul (fsub v (smaAt x L i)) (fsub v (smaAt x L i))) :=
        List.mem_map.mpr ⟨none, hnone, by simp [fsub, fmul]⟩
      have hfast : fastVarAt x L i = none := by
        simp only [fastVarAt, if_neg hi]
        rw [sumO_of_mem_none _ hmem]
        simp [qdivF]
      rw [hpd, hfast]
    | some vs =>
      have hwin : win x i L = vs.map some := seqO_some _ _ hw
      have hsum : sumO (win x i L) = some vs.sum := by rw [hwin]; exact sumO_map_some vs
      have hLQ : ((L : ℚ)) ≠ 0 := Nat.cast_ne_zero.mpr (by omega)
      have hsma : smaAt x L i = some (vs.sum / L) := by
        unfold smaAt
        rw [if_neg hi, hsum]
        simp [qdivF, hLQ]
      have hpd : pdVarAt x L i =
          qdivF (some ((vs.map (fun v => (v - vs.sum / L) ^ 2)).sum)) (L - 1 : ℕ) := by
        simp [pdVarAt, hi, hw]
      have hfast : fastVarAt x L i =
          qdivF (some ((vs.map (fun v => (v - vs.sum / L) ^ 2)).sum)) (L - 1 : ℕ) := by
        simp only [fastVarAt, if_neg hi, hwin, hsma, List.map_map]
        have hcomp :
            ((fun v => fmul (fsub v (some (vs.sum / L))) (fsub v (some (vs.sum / L)))) ∘ some) =
              (fun q : ℚ => some ((q - vs.sum / L) ^ 2)) := by
          funext q
          simp [Function.comp, fsub, fmul, pow_two]
        rw [hcomp]
        rw [show List.map (fun q : ℚ => some ((q - vs.sum / (L : ℚ)) ^ 2)) vs =
            List.map some (List.map (fun q : ℚ => (q - vs.sum / (L : ℚ)) ^ 2) vs) by
          rw [List.map_map]
          rfl]
        rw [sumO_map_some]
      rw [hpd, hfast]

/-- C6 (amended): the two Bollinger families agree elementwise, and
both compute middle = sma with bands middle ± mult times the square root
of the sample variance (ddof = 1) — the pandas composition is that
formula by definition, and the array-mode loop reduces to it. -/
theorem c6_amended :
    ∀ (x : List F) (L : Nat) (m : ℚ) (i : Nat), 1 ≤ L →
      bbFastAt x L m i = bbPdAt x L m i := by
  intro x L m i hL
  unfold bbFastAt bbPdAt
  rw [varAt_eq x L i hL]

/-- C6 witness: the family agreement instantiated at x = [1, 2, 3],
L = 2, mult = 1, index 1. -/
theorem c6_amended_witness :
    1 ≤ 2 ∧ bbFastAt [some 1, some 2, some 3] 2 1 1 = bbPdAt [some 1, some 2, some 3] 2 1 1 :=
  ⟨by decide, c6_amended [some 1, some 2, some 3] 2 1 1 (by decide)⟩

/-- C6, counterexample: on x = [1, 2, 3] with L = 2 and mult = 1 the
code's upper band at index 1 is 3/2 + √(1/2) (sample variance 1/2),
while the claimed population-std band is 3/2 + √(1/4) = 2; the two
differ. -/
theorem c6_counterexample :
    (bbPdAt [some 1, some 2, some 3] 2 1 1).2.1 = some ((3 / 2 : ℝ) + Real.sqrt (1 / 2)) ∧
    bbPopUpperAt [some 1, some 2, some 3] 2 1 1 = some 2 ∧
    (bbPdAt [some 1, some 2, some 3] 2 1 1).2.1 ≠
      bbPopUpperAt [some 1, some 2, some 3] 2 1 1 := by
  have hsma : smaAt [some 1, some 2, some 3] 2 1 = some (3 / 2) := by
    norm_num [smaAt, win, sumO, fadd, qdivF]
  have hvar : pdVarAt [some 1, some 2, some 3] 2 1 = some (1 / 2) := by
    norm_num [pdVarAt, winVals, win, seqO, qdivF]
  have hpop : popVarAt [some 1, some 2, some 3] 2 1 = some (1 / 4) := by
    norm_num [popVarAt, winVals, win, seqO, qdivF]
  have h1 : (bbPdAt [some 1, some 2, some 3] 2 1 1).2.1 =
      some ((3 / 2 : ℝ) + Real.sqrt (1 / 2)) := by
    simp only [bbPdAt, hsma, hvar, liftR, osqrt, oaddR, omulR, Option.map_some]
    norm_num
  have hroot : Real.sqrt (1 / 4) = 1 / 2 := by
    rw [show (1 / 4 : ℝ) = (1 / 2) ^ 2 by norm_num]
    exact Real.sqrt_sq (by norm_num)
  have h2 : bbPopUpperAt [some 1, some 2, some 3] 2 1 1 = some 2 := by
    simp only [bbPopUpperAt, hsma, hpop, liftR, osqrt, oaddR, omulR, Option.map_some]
    norm_num [hroot]
  refine ⟨h1, h2, ?_⟩
  rw [h1, h2]
  intro heq
  have hs : Real.sqrt (1 / 2) = 1 / 2 := by
    have := Option.some_inj.mp heq
    linarith
  have hsq := Real.sq_sqrt (show (0 : ℝ) ≤ 1 / 2 by norm_num)
  rw [hs] at hsq
  norm_num at hsq

/-- No line-scanner kind maps to the eof kind. -/
theorem lkindToType_ne_eof (k : LKind) : lkindToType k ≠ TokenType.eof := by
  cases k <;> simp [lkindToType]

/-- Every token of the dedent-pop loop is a dedent. -/
theorem popDedents_types (indent ln : Nat) :
    ∀ stack : List Nat, ∀ t ∈ (popDedents indent ln stack).1, t.type = TokenType.dedent
  | [], t, ht => by simp [popDedents] at ht
  | s :: rest, t, ht => by
    by_cases h : indent < s
    · simp only [popDedents, if_pos h, List.mem_cons] at ht
      rcases ht with rfl | ht
      · rfl
      · exact popDedents_types indent ln rest t ht
    · simp [popDedents, h] at ht

/-- The main tokenizer loop never emits an eof token: its output is
made of indent/dedent bookkeeping, line-content tokens and newlines. -/
theorem tokGo_no_eof :
    ∀ (lines : List (Nat × List Char)) (stack : List Nat),
      ∀ t ∈ (tokGo stack lines).1, t.type ≠ TokenType.eof
  | [], stack, t, ht => by simp [tokGo] at ht
  | (ln, line) :: rest, stack, t, ht => by
    by_cases hb : pyStrip line = []
    · rw [show tokGo stack ((ln, line) :: rest) = tokGo stack rest by
        simp [tokGo, hb]] at ht
      exact tokGo_no_eof rest stack t ht
    · simp only [tokGo, if_neg hb, List.append_assoc, List.mem_append, List.mem_cons,
        List.mem_singleton] at ht
      rcases ht with hp | hd | hl | hn | ht
      · split at hp
        · simp only [List.mem_singleton] at hp
          rw [hp]
          exact fun h => nomatch h
        · simp at hp
      · have := popDedents_types (leadSpaces line) ln _ t hd
        rw [this]
        decide
      · rcases List.mem_map.mp hl with ⟨lt, _, rfl⟩
        exact lkindToType_ne_eof lt.kind
      · rcases hn with rfl | hx
        · exact fun h => nomatch h
        · simp at hx
      · exact tokGo_no_eof rest _ t ht

/-- C7: for every input source string the tokenizer terminates (the
embedding is a total function) and the emitted stream is the loop body —
which contains no eof token — followed by exactly one dedent per
indentation level still open on the final indent stack, followed by a
single eof token; in particular the stream holds exactly one eof. -/
theorem c7_tokenize_shape :
    ∀ src : String,
      (tokGo [0] (preprocess src)).1.countP (fun t => t.type == TokenType.eof) = 0 ∧
      tokenize src =
        (tokGo [0] (preprocess src)).1 ++
          List.replicate ((tokGo [0] (preprocess src)).2.length - 1)
            ⟨TokenType.dedent, [], 0⟩ ++
          [⟨TokenType.eof, [], 0⟩] ∧
      (tokenize src).countP (fun t => t.type == TokenType.eof) = 1 := by
  intro src
  have h0 : (tokGo [0] (preprocess src)).1.countP (fun t => t.type == TokenType.eof) = 0 := by
    rw [List.countP_eq_zero]
    intro t ht
    simpa using tokGo_no_eof (preprocess src) [0] t ht
  refine ⟨h0, rfl, ?_⟩
  rw [show tokenize src =
        (tokGo [0] (preprocess src)).1 ++
          List.replicate ((tokGo [0] (preprocess src)).2.length - 1)
            ⟨TokenType.dedent, [], 0⟩ ++
          [⟨TokenType.eof, [], 0⟩] from rfl]
  rw [List.countP_append, List.countP_append, h0]
  have hrep : (List.replicate ((tokGo [0] (preprocess src)).2.length - 1)
      (⟨TokenType.dedent, [], 0⟩ : Token)).countP (fun t => t.type == TokenType.eof) = 0 := by
    rw [List.countP_eq_zero]
    intro t ht
    rw [List.eq_of_mem_replicate ht]
    simp
  rw [hrep]
  rfl

end Pineback
